import Mathlib

/-!
Verification of the mind-map subsystem of the AI-Exam-Prep front end
(`src/frontend/src/components/MindMap.tsx`).

The component's JavaScript objects (`Record<string, T>`) are modelled as
ordered association lists `List (String × T)` — `Object.keys` iteration
order for string keys is insertion order, which the list order captures;
`m[k] = v` is `setA` (update in place if present, append otherwise) and
`m[k]` is `lookupA`.  Floating-point numbers are idealized as `ℚ`.
-/

namespace MindMap

/-- `m[k]` on a JS object modelled as an ordered association list. -/
def lookupA {β : Type} : List (String × β) → String → Option β
  | [], _ => none
  | p :: rest, k => if p.1 = k then some p.2 else lookupA rest k

/-- `m[k] = v` on a JS object: overwrite in place if the key is present,
append at the end otherwise (JS keeps first-insertion key order). -/
def setA {β : Type} : List (String × β) → String → β → List (String × β)
  | [], k, v => [(k, v)]
  | p :: rest, k, v => if p.1 = k then (k, v) :: rest else p :: setA rest k v

/-!
### LevelAssigner (BFS over the node map)

Source: `MindMap.tsx` lines 156-179.  The graph is a lookup from node id to
its `children` array (`nodes[id].children`); ids with no node give `none`
(`if (!node) continue`).  The JS truthiness test `if (!levels[childId])`
treats both `undefined` and `0` as "not yet levelled".
-/

/-- The JS condition `!levels[childId]`: true when the recorded level is
absent or `0` (JS falsy). -/
def isFalsy (m : List (String × Nat)) (c : String) : Bool :=
  match lookupA m c with
  | none => true
  | some 0 => true
  | some (_ + 1) => false

/-- State of the level-assignment loop: the `levels` record and the work
queue of `{id, level}` entries. -/
structure BfsState where
  levels : List (String × Nat)
  queue : List (String × Nat)
deriving DecidableEq

/-- One iteration of the `while (queue.length > 0)` loop in the
level-assignment effect: dequeue `{id, level}`, record `levels[id] = level`,
and enqueue `{childId, level+1}` for every child whose recorded level is
falsy after the assignment. -/
def bfsStep (g : String → Option (List String)) (s : BfsState) : BfsState :=
  match s.queue with
  | [] => s
  | (id, l) :: rest =>
    let levels1 := setA s.levels id l
    let cs := (g id).getD []
    { levels := levels1
      queue := rest ++ (cs.filter (fun c => isFalsy levels1 c)).map (fun c => (c, l + 1)) }

/-- The starting state: `queue = [{id: rootNodeId, level: 0}]`, empty levels. -/
def bfsInit (root : String) : BfsState :=
  { levels := [], queue := [(root, 0)] }

/-- The level-assignment loop after `n` iterations. -/
def bfsRun (g : String → Option (List String)) (root : String) : Nat → BfsState
  | 0 => bfsInit root
  | n + 1 => bfsStep g (bfsRun g root n)

/-- All ids that occur in some children list of the graph, given a list
`dom` covering the graph's support. -/
def allKids (g : String → Option (List String)) (dom : List String) : List String :=
  (dom.map (fun i => (g i).getD [])).flatten

/-- Number of ids (among the children occurring in the graph) whose
recorded level is truthy, i.e. a positive number.  Strictly grows whenever
a falsy-levelled node is dequeued with a positive level. -/
def truthyCount (g : String → Option (List String)) (dom : List String)
    (s : BfsState) : Nat :=
  ((allKids g dom).toFinset.filter (fun c => isFalsy s.levels c = false)).card

/-- The order in which the BFS loop dequeues ("visits") nodes, over the
first `n` iterations.  Used to express the spec's phrase
"first BFS-visiting parent". -/
def bfsVisitOrder (g : String → Option (List String)) (root : String) : Nat → List String
  | 0 => []
  | n + 1 =>
    bfsVisitOrder g root n ++
      (match (bfsRun g root n).queue with
       | [] => []
       | (id, _) :: _ => [id])

/-!
### Layout constants (`MindMap.tsx` lines 33-36)
-/

def NODE_WIDTH : ℚ := 180
def NODE_HEIGHT : ℚ := 80
def VERTICAL_SPACING : ℚ := 160

/-!
### LayoutEngine (`MindMap.tsx` lines 181-296)

The node map is an ordered association list from id to the node's
`children` array (label/description do not influence layout).  Positions
are an ordered association list from id to `(x, y)` in world coordinates.
-/

/-- Positions record: `nodePositions`. -/
abbrev PosA := List (String × (ℚ × ℚ))

/-- The parent lookup of the layout effect (line 218):
`Object.keys(nodes).find(id => (nodes[id].children || []).includes(nodeId))` —
the first id in the node map's key order whose children contain `t`. -/
def findParent (nodesList : List (String × List String)) (t : String) : Option String :=
  (nodesList.find? (fun p => p.2.contains t)).map Prod.fst

/-- The claim's phrase, "the parent that the BFS traversal visits first":
the first node in BFS dequeue order whose children list contains `t`.
This definition follows the claim's words (for comparison against
`findParent`, which is what the code does); it is not code of the source. -/
def claimedFirstBfsParent (g : String → Option (List String)) (root : String)
    (fuel : Nat) (t : String) : Option String :=
  (bfsVisitOrder g root fuel).find? (fun id => ((g id).getD []).contains t)

/-- Group the levels record by level value, ascending (JS objects iterate
integer-like keys in ascending numeric order), each group in insertion
order of the levels record (line 192-198). -/
def nodesByLevel (levels : List (String × Nat)) : List (Nat × List String) :=
  (List.insertionSort (· ≤ ·) (levels.map Prod.snd).dedup).map
    (fun l => (l, (levels.filter (fun p => p.2 = l)).map Prod.fst))

/-- Initial placement of one level (lines 207-247): for each node of the
level in order, find its parent; skip the node if the parent is missing or
not yet positioned; a single-node level sits at its parent's x, otherwise
the node is spread across the central 80% band and blended 0.7/0.3 with its
parent's x; y is `100 + level * VERTICAL_SPACING`. -/
def placeLevel (w : ℚ) (nodesList : List (String × List String))
    (lvl : Nat) (ids : List String) (pos : PosA) : PosA :=
  ids.enum.foldl (fun acc iv =>
    match findParent nodesList iv.2 with
    | none => acc
    | some p =>
      match lookupA acc p with
      | none => acc
      | some pp =>
        let n := ids.length
        let levelWidth := w * 0.8
        let startX := (w - levelWidth) / 2
        let x : ℚ :=
          if n = 1 then pp.1
          else
            (startX + (iv.1 : ℚ) * (levelWidth / (if n - 1 = 0 then 1 else ((n : ℚ) - 1)))) * 0.7
              + pp.1 * 0.3
        let y : ℚ := 100 + (lvl : ℚ) * VERTICAL_SPACING
        setA acc iv.2 (x, y)) pos

/-- The x coordinate the overlap resolver reads (`positions[a].x`).  In the
source an id without a position would make the sort comparator throw; the
`0` default is never consulted on runs where layout completes (which force
every id of a level with two or more nodes to be positioned). -/
def posX (pos : PosA) (id : String) : ℚ :=
  match lookupA pos id with
  | some p => p.1
  | none => 0

/-- `nodeIds.sort((a, b) => positions[a].x - positions[b].x)` — a stable
ascending sort by current x. -/
def sortByX (pos : PosA) (ids : List String) : List String :=
  List.insertionSort (fun a b => posX pos a ≤ posX pos b) ids

/-- The inner pass of `resolveOverlaps` (lines 262-278) over one level's
sorted ids: walk adjacent pairs; when both are positioned and
`x_cur + NODE_WIDTH + 20 > x_next`, shift the current node left and the
next node right by half the overlap (the second write re-reads the record,
as the JS `+=` does) and set the changed flag. -/
def fixPairs : List String → PosA → Bool → PosA × Bool
  | a :: b :: rest, pos, ch =>
    (match lookupA pos a, lookupA pos b with
     | some pa, some pb =>
       if pb.1 < pa.1 + NODE_WIDTH + 20 then
         let overlap := pa.1 + NODE_WIDTH + 20 - pb.1
         let pos1 := setA pos a (pa.1 - overlap / 2, pa.2)
         let pb1 := (lookupA pos1 b).getD pb
         fixPairs (b :: rest) (setA pos1 b (pb1.1 + overlap / 2, pb1.2)) true
       else fixPairs (b :: rest) pos ch
     | _, _ => fixPairs (b :: rest) pos ch)
  | _, pos, ch => (pos, ch)

/-- One call of `resolveOverlaps` (lines 250-282): for every level except
level 0, sort the level by current x and fix adjacent overlaps; the
returned flag reports whether any position changed during the call. -/
def resolveOverlaps (nbl : List (Nat × List String)) (pos : PosA) : PosA × Bool :=
  nbl.foldl (fun acc entry =>
    if entry.1 = 0 then acc
    else fixPairs (sortByX acc.1 entry.2) acc.1 acc.2) (pos, false)

/-- The driver loop (lines 285-287): `for (let i = 0; i < 5; i++) if
(!resolveOverlaps()) break;` with the given iteration budget.  The flag of
the result is `true` exactly when some call returned "no change" — i.e.
when the loop exited early rather than exhausting the budget. -/
def resolveLoop : Nat → List (Nat × List String) → PosA → PosA × Bool
  | 0, _, pos => (pos, false)
  | n + 1, nbl, pos =>
    let r := resolveOverlaps nbl pos
    if r.2 then resolveLoop n nbl r.1 else (r.1, true)

/-- The whole layout effect body (once its guard has passed): place the
root at `(w/2, 100)`, place the other levels, then run the overlap
resolver for up to 5 iterations. -/
def layoutPositions (w : ℚ) (rootId : String)
    (nodesList : List (String × List String)) (levels : List (String × Nat)) : PosA :=
  let nbl := nodesByLevel levels
  let pos0 : PosA := setA [] rootId (w / 2, 100)
  let placed := nbl.foldl
    (fun acc e => if e.1 = 0 then acc else placeLevel w nodesList e.1 e.2 acc) pos0
  (resolveLoop 5 nbl placed).1

/-!
### GraphModel (props validation, `MindMap.tsx` lines 124-145)
-/

/-- The three error states of the props-validation effect. -/
inductive LoadError
  | missingRoot
  | missingNodes
  | rootNotFound
deriving DecidableEq

/-- The validation checks, in source order: `!rootNodeId` (empty string is
falsy), `!nodes`, `!nodes[rootNodeId]`. -/
def validateProps (rootId : String)
    (nodes : Option (List (String × List String))) : Option LoadError :=
  if rootId = "" then some .missingRoot
  else
    match nodes with
    | none => some .missingNodes
    | some m => if (lookupA m rootId).isNone then some .rootNotFound else none

/-- The levels record produced by the level effect (lines 156-179): the
guard `if (!rootNodeId || !nodes[rootNodeId]) return;` leaves the record at
its initial `{}`; otherwise the BFS loop runs (here for `fuel`
iterations). -/
def levelsAfterLoad (rootId : String) (nodesList : List (String × List String))
    (fuel : Nat) : List (String × Nat) :=
  if rootId = "" then []
  else if (lookupA nodesList rootId).isNone then []
  else (bfsRun (fun id => lookupA nodesList id) rootId fuel).levels

/-- The positions record produced by the layout effect (lines 182-296): the
guard `if (!rootNodeId || !nodes[rootNodeId] ||
Object.keys(nodeLevels).length === 0) return;` leaves the record at its
initial `{}`; otherwise the layout runs. -/
def positionsAfterLoad (w : ℚ) (rootId : String)
    (nodesList : List (String × List String)) (levels : List (String × Nat)) : PosA :=
  if rootId = "" then []
  else if (lookupA nodesList rootId).isNone then []
  else if levels.isEmpty then []
  else layoutPositions w rootId nodesList levels

/-!
### ViewportController (`MindMap.tsx` lines 536-543, 624-652, 676-687)
-/

/-- `handleWheel`: `delta = e.deltaY > 0 ? -0.1 : 0.1;
newScale = Math.max(0.5, Math.min(2, scale + delta))`. -/
def handleWheel (deltaY : ℚ) (scale : ℚ) : ℚ :=
  max 0.5 (min 2 (scale + (if 0 < deltaY then -0.1 else 0.1)))

/-- The Zoom In button: `setScale(Math.min(2, scale + 0.1))`. -/
def zoomInClick (scale : ℚ) : ℚ := min 2 (scale + 0.1)

/-- The Zoom Out button: `setScale(Math.max(0.5, scale - 0.1))`. -/
def zoomOutClick (scale : ℚ) : ℚ := max 0.5 (scale - 0.1)

/-- `resetView` sets the scale to 1. -/
def resetViewScale : ℚ := 1

/-- The scale-changing operations of the component. -/
inductive ScaleOp
  | wheel (deltaY : ℚ)
  | zoomIn
  | zoomOut
  | reset

/-- Apply one scale-changing operation to the current scale. -/
def applyScaleOp : ScaleOp → ℚ → ℚ
  | .wheel d, s => handleWheel d s
  | .zoomIn, s => zoomInClick s
  | .zoomOut, s => zoomOutClick s
  | .reset, _ => resetViewScale

/-- Apply a finite sequence of scale-changing operations. -/
def applyScaleOps (ops : List ScaleOp) (s : ℚ) : ℚ :=
  ops.foldl (fun a o => applyScaleOp o a) s

/-- The world-to-screen mapping of the draw effect (lines 336-338):
`translate(offset)` then `scale(scale)`, i.e. `screen = offset + scale * world`
(in CSS pixels; the device-pixel-ratio factor is compensated by the canvas
backing-store sizing). -/
def worldToScreen (scale : ℚ) (offset : ℚ × ℚ) (p : ℚ × ℚ) : ℚ × ℚ :=
  (offset.1 + scale * p.1, offset.2 + scale * p.2)

/-- `centerOnNode` (lines 631-647): if the node has no position (or, in the
DOM, no canvas), nothing changes; otherwise the offset is set so the node's
center lands at the viewport center at the current scale, and the node
becomes selected. -/
def centerOnNode (positions : PosA) (nodeId : String) (scale : ℚ)
    (rectW rectH : ℚ) (offset : ℚ × ℚ) (selected : Option String) :
    (ℚ × ℚ) × Option String :=
  match lookupA positions nodeId with
  | none => (offset, selected)
  | some p =>
    ((rectW / 2 - p.1 * scale - NODE_WIDTH / 2 * scale,
      rectH / 2 - p.2 * scale - NODE_HEIGHT / 2 * scale),
     some nodeId)

/-!
### InteractionController hit tests (`MindMap.tsx` lines 554-564, 593-603)
-/

/-- The per-node hit test of `handleMouseDown`:
`x >= pos.x && x <= pos.x + NODE_WIDTH && y >= pos.y && y <= pos.y + NODE_HEIGHT`
on the world-space pointer `p`. -/
def hitTestDown (pos : ℚ × ℚ) (p : ℚ × ℚ) : Bool :=
  decide (pos.1 ≤ p.1) && decide (p.1 ≤ pos.1 + NODE_WIDTH) &&
    decide (pos.2 ≤ p.2) && decide (p.2 ≤ pos.2 + NODE_HEIGHT)

/-- The per-node hit test of `handleMouseMove` (hover), textually identical
to the mouse-down one. -/
def hitTestMove (pos : ℚ × ℚ) (p : ℚ × ℚ) : Bool :=
  decide (pos.1 ≤ p.1) && decide (p.1 ≤ pos.1 + NODE_WIDTH) &&
    decide (pos.2 ≤ p.2) && decide (p.2 ≤ pos.2 + NODE_HEIGHT)

/-!
### AnimationScheduler (`MindMap.tsx` lines 147-154, 307-321)
-/

/-- The target scale of a node for the current hover/selection state
(line 313): `nodeId === hoveredNode ? 1.05 : nodeId === selectedNode ? 1.1 : 1.0`.
Note the hovered test comes first in the source. -/
def nodeTarget (hovered selected : Option String) (id : String) : ℚ :=
  if some id = hovered then 1.05 else if some id = selected then 1.1 else 1.0

/-- One animation tick (lines 307-321): for every key of `nodes`, replace
the stored scale `v` by `v * 0.9 + target * 0.1`.  The source would produce
`NaN` for an id missing from the record (`undefined * 0.9 + ...`); `NaN`
has no `ℚ` counterpart, so such ids are left untouched here — every claim
concerns ids initialized by the scale-initialization effect. -/
def tickScales (keys : List String) (hovered selected : Option String)
    (m : List (String × ℚ)) : List (String × ℚ) :=
  keys.foldl (fun acc id =>
    match lookupA acc id with
    | some v => setA acc id (v * 0.9 + nodeTarget hovered selected id * 0.1)
    | none => acc) m

/-- The scale-initialization effect (lines 147-154): every key of `nodes`
gets scale `1.0`. -/
def initScales (keys : List String) : List (String × ℚ) :=
  keys.foldl (fun acc id => setA acc id 1.0) []

/-- A sequence of animation ticks, each under its own hover/selection
state. -/
def runTicks (keys : List String) (events : List (Option String × Option String))
    (m : List (String × ℚ)) : List (String × ℚ) :=
  events.foldl (fun acc e => tickScales keys e.1 e.2 acc) m

/-- The claim's version of the target (C3's words): "1.10 if the node is
the selected node, else 1.05 if it is the hovered node, else 1.00" —
selected takes precedence.  Stated from the claim for comparison with
`nodeTarget`; not code of the source. -/
def claimedTarget (hovered selected : Option String) (id : String) : ℚ :=
  if some id = selected then 1.1 else if some id = hovered then 1.05 else 1.0

/-- The separation the overlap resolver establishes between two ids of a
level (reading-order): the left one's right edge plus the gap is left of
the right one's x. -/
def gapRel (pos : PosA) (a b : String) : Prop :=
  posX pos a + NODE_WIDTH + 20 ≤ posX pos b

/-- The mutation `resolveOverlaps` performs on an overlapping adjacent pair
(lines 273-276), written as a standalone map update: the current node moves
left by half the overlap, then the next node (re-read, as the JS `+=`
re-reads) moves right by half the overlap.  `fixPairs` reduces to this
term. -/
def bumpPair (pos : PosA) (a b : String) (pa pb : ℚ × ℚ) : PosA :=
  let overlap := pa.1 + NODE_WIDTH + 20 - pb.1
  let pos1 := setA pos a (pa.1 - overlap / 2, pa.2)
  let pb1 := (lookupA pos1 b).getD pb
  setA pos1 b (pb1.1 + overlap / 2, pb1.2)

/-!
## Helper lemmas
-/

theorem lookupA_setA {β : Type} (m : List (String × β)) (k : String) (v : β)
    (x : String) :
    lookupA (setA m k v) x = if x = k then some v else lookupA m x := by
  induction m with
  | nil =>
    by_cases h : x = k
    · simp [setA, lookupA, h]
    · simp [setA, lookupA, h, show ¬(k = x) from fun e => h e.symm]
  | cons p rest ih =>
    by_cases hpk : p.1 = k
    · simp only [setA, if_pos hpk, lookupA]
      by_cases hxk : x = k
      · simp [hxk]
      · have : ¬(k = x) := fun e => hxk (Eq.symm e)
        simp only [if_neg this, if_neg hxk]
        have hpx : ¬(p.1 = x) := fun e => hxk (by rw [← e, hpk])
        simp [lookupA, if_neg hpx]
    · simp only [setA, if_neg hpk, lookupA]
      by_cases hpx : p.1 = x
      · have hxk : ¬(x = k) := fun e => hpk (by rw [hpx, e])
        simp [if_pos hpx, if_neg hxk]
      · simp [if_neg hpx, ih]

theorem isSome_lookupA_setA {β : Type} (m : List (String × β)) (k : String)
    (v : β) (x : String) (h : (lookupA m x).isSome) :
    (lookupA (setA m k v) x).isSome := by
  rw [lookupA_setA]
  by_cases hxk : x = k <;> simp [hxk, h]

/-!
## Claim theorems
-/

/-- Claim C9: both the mouse-down and the hover hit test classify a
world-space pointer as inside a node exactly when it lies in the closed box
`[x, x + NODE_WIDTH] × [y, y + NODE_HEIGHT]` around the node's base-size
position — the two hit tests agree, and both boundary edges are
inclusive. -/
theorem hitTest_inclusive_box :
    (∀ pos p : ℚ × ℚ, hitTestDown pos p = hitTestMove pos p) ∧
      (∀ pos p : ℚ × ℚ, hitTestDown pos p = true ↔
        (pos.1 ≤ p.1 ∧ p.1 ≤ pos.1 + NODE_WIDTH ∧
          pos.2 ≤ p.2 ∧ p.2 ≤ pos.2 + NODE_HEIGHT)) := by
  refine ⟨fun pos p => rfl, fun pos p => ?_⟩
  simp [hitTestDown, and_assoc]

/-- Any single scale-changing operation keeps the scale inside
`[0.5, 2.0]`. -/
theorem applyScaleOp_bounds (o : ScaleOp) (s : ℚ) (h1 : 1/2 ≤ s) (h2 : s ≤ 2) :
    1/2 ≤ applyScaleOp o s ∧ applyScaleOp o s ≤ 2 := by
  cases o with
  | wheel d =>
    simp only [applyScaleOp, handleWheel]
    exact ⟨le_trans (by norm_num) (le_max_left _ _),
      max_le (by norm_num) (min_le_left _ _)⟩
  | zoomIn =>
    simp only [applyScaleOp, zoomInClick]
    exact ⟨le_min (by norm_num) (by linarith), min_le_left _ _⟩
  | zoomOut =>
    simp only [applyScaleOp, zoomOutClick]
    exact ⟨le_trans (by norm_num) (le_max_left _ _),
      max_le (by norm_num) (by linarith)⟩
  | reset =>
    norm_num [applyScaleOp, resetViewScale]

/-- Claim C7: the predicate `scale ∈ [0.5, 2.0]` is preserved by every
finite sequence of scale-changing operations (wheel zoom, the Zoom In and
Zoom Out buttons, reset); in particular no sequence of zoom-in requests
ever pushes the scale above 2. -/
theorem scale_clamped (ops : List ScaleOp) (s : ℚ) (h1 : 1/2 ≤ s) (h2 : s ≤ 2) :
    1/2 ≤ applyScaleOps ops s ∧ applyScaleOps ops s ≤ 2 := by
  induction ops generalizing s with
  | nil => exact ⟨h1, h2⟩
  | cons o rest ih =>
    have hb := applyScaleOp_bounds o s h1 h2
    simpa [applyScaleOps] using ih (applyScaleOp o s) hb.1 hb.2

/-- Witness for C7 at a concrete input: one Zoom In press from scale 1. -/
theorem scale_clamped_witness :
    ((1/2 : ℚ) ≤ 1 ∧ (1 : ℚ) ≤ 2) ∧
      (1/2 ≤ applyScaleOps [ScaleOp.zoomIn] 1 ∧ applyScaleOps [ScaleOp.zoomIn] 1 ≤ 2) :=
  ⟨⟨by norm_num, by norm_num⟩,
    scale_clamped [ScaleOp.zoomIn] 1 (by norm_num) (by norm_num)⟩

/-- Claim C6: immediately after `centerOnNode nodeId` on a positioned node,
mapping the node's world-space center through the current scale and the new
offset gives exactly the viewport's visual center, and the node is
selected. -/
theorem centerOnNode_centers (positions : PosA) (nodeId : String) (scale : ℚ)
    (rectW rectH : ℚ) (offset : ℚ × ℚ) (selected : Option String)
    (p : ℚ × ℚ) (hp : lookupA positions nodeId = some p) :
    worldToScreen scale
        (centerOnNode positions nodeId scale rectW rectH offset selected).1
        (p.1 + NODE_WIDTH / 2, p.2 + NODE_HEIGHT / 2) = (rectW / 2, rectH / 2) ∧
      (centerOnNode positions nodeId scale rectW rectH offset selected).2
        = some nodeId := by
  constructor
  · simp only [centerOnNode, hp, worldToScreen, Prod.mk.injEq]
    constructor <;> ring
  · simp only [centerOnNode, hp]

/-- Unfolding one step of the per-tick `forEach` over the node keys. -/
theorem tickScales_cons (k : String) (ks : List String)
    (hov sel : Option String) (m : List (String × ℚ)) :
    tickScales (k :: ks) hov sel m
      = tickScales ks hov sel
          (match lookupA m k with
           | some v => setA m k (v * 0.9 + nodeTarget hov sel k * 0.1)
           | none => m) := rfl

/-- Ids outside the iterated key list are untouched by an animation
tick. -/
theorem lookupA_tickScales_not_mem (keys : List String)
    (hov sel : Option String) (m : List (String × ℚ)) (id : String)
    (h : id ∉ keys) :
    lookupA (tickScales keys hov sel m) id = lookupA m id := by
  induction keys generalizing m with
  | nil => rfl
  | cons k ks ih =>
    have hne : id ≠ k := fun e => h (e ▸ List.mem_cons_self k ks)
    have hks : id ∉ ks := fun e => h (List.mem_cons_of_mem _ e)
    rw [tickScales_cons, ih _ hks]
    cases hm : lookupA m k with
    | none => simp [hm]
    | some w => simp [hm, lookupA_setA, if_neg hne]

/-- Counterexample to claim C3: for a node that is simultaneously hovered
and selected, the code's target is 1.05 (hovered wins, line 313), so the
tick stores `1 * 0.9 + 1.05 * 0.1 = 1.005`, not the
`1 * 0.9 + 1.1 * 0.1 = 1.01` the claim's selected-takes-precedence target
demands. -/
theorem tick_selected_precedence_false :
    lookupA (tickScales ["n"] (some "n") (some "n") [("n", 1)]) "n"
        = some 1.005 ∧
      (1 : ℚ) * 0.9 + claimedTarget (some "n") (some "n") "n" * 0.1 = 1.01 ∧
      (1.005 : ℚ) ≠ 1.01 := by
  refine ⟨?_, ?_, by norm_num⟩
  · norm_num [tickScales, lookupA, setA, nodeTarget]
  · norm_num [claimedTarget]

/-- Amended claim C3: on every animation tick and for every node id in the
node map whose scale is stored, the new scale equals
`old * 0.9 + target * 0.1`, where the target is 1.05 if the node is
hovered, else 1.10 if it is selected, else 1.00 — hovered takes precedence
over selected. -/
theorem tick_interpolates_with_hovered_precedence (keys : List String)
    (hov sel : Option String) :
    ∀ (m : List (String × ℚ)) (id : String) (v : ℚ),
      id ∈ keys → keys.Nodup → lookupA m id = some v →
      lookupA (tickScales keys hov sel m) id
        = some (v * 0.9 +
            (if some id = hov then 1.05 else if some id = sel then 1.1 else 1.0) * 0.1) := by
  induction keys with
  | nil =>
    intro m id v hk _ _
    cases hk
  | cons k ks ih =>
    intro m id v hk hnd hv
    rw [tickScales_cons]
    rcases List.mem_cons.mp hk with hik | hik
    · subst hik
      rw [lookupA_tickScales_not_mem ks hov sel _ id (List.nodup_cons.mp hnd).1]
      simp [hv, lookupA_setA, nodeTarget]
    · have hne : id ≠ k := by
        rintro rfl
        exact (List.nodup_cons.mp hnd).1 hik
      refine ih _ id v hik (List.nodup_cons.mp hnd).2 ?_
      cases hm : lookupA m k with
      | none => simpa [hm] using hv
      | some w => simp [hm, lookupA_setA, if_neg hne, hv]

/-- Witness for the amended C3 at a concrete input: one node, no hover, no
selection. -/
theorem tick_interpolates_witness :
    ("n" ∈ ["n"] ∧ ["n"].Nodup ∧
        lookupA [("n", (1 : ℚ))] "n" = some 1) ∧
      lookupA (tickScales ["n"] none none [("n", 1)]) "n"
        = some (1 * 0.9 +
            (if some "n" = (none : Option String) then 1.05
             else if some "n" = (none : Option String) then 1.1 else 1.0) * 0.1) :=
  ⟨⟨List.mem_cons_self "n" [], List.nodup_singleton "n", rfl⟩,
    tick_interpolates_with_hovered_precedence ["n"] none none [("n", 1)] "n" 1
      (List.mem_cons_self "n" []) (List.nodup_singleton "n") rfl⟩

/-- The code's animation target always lies in `[1, 1.1]`. -/
theorem nodeTarget_bounds (hov sel : Option String) (id : String) :
    1 ≤ nodeTarget hov sel id ∧ nodeTarget hov sel id ≤ 1.1 := by
  unfold nodeTarget
  split_ifs <;> norm_num

/-- Scale records whose stored values all lie in `[1, 1.1]` keep that
property through one animation tick. -/
theorem tickScales_preserves_bounds (keys : List String)
    (hov sel : Option String) :
    ∀ m : List (String × ℚ),
      (∀ id v, lookupA m id = some v → 1 ≤ v ∧ v ≤ 1.1) →
      ∀ id v, lookupA (tickScales keys hov sel m) id = some v → 1 ≤ v ∧ v ≤ 1.1 := by
  induction keys with
  | nil => intro m hm id v hv; exact hm id v hv
  | cons k ks ih =>
    intro m hm id v hv
    rw [tickScales_cons] at hv
    refine ih _ ?_ id v hv
    intro id2 v2 hv2
    cases hm2 : lookupA m k with
    | none =>
      rw [hm2] at hv2
      exact hm id2 v2 hv2
    | some w =>
      rw [hm2, lookupA_setA] at hv2
      by_cases h2k : id2 = k
      · rw [if_pos h2k] at hv2
        have hw := hm k w hm2
        have ht := nodeTarget_bounds hov sel k
        cases hv2
        constructor <;> nlinarith [hw.1, hw.2, ht.1, ht.2]
      · rw [if_neg h2k] at hv2
        exact hm id2 v2 hv2

/-- The initialization effect stores exactly 1.0 for every key. -/
theorem initScales_bounds (keys : List String) :
    ∀ id v, lookupA (initScales keys) id = some v → 1 ≤ v ∧ v ≤ 1.1 := by
  have aux : ∀ (ks : List String) (acc : List (String × ℚ)),
      (∀ id v, lookupA acc id = some v → 1 ≤ v ∧ v ≤ 1.1) →
      ∀ id v, lookupA (ks.foldl (fun a i => setA a i 1.0) acc) id = some v →
        1 ≤ v ∧ v ≤ 1.1 := by
    intro ks
    induction ks with
    | nil => intro acc hacc id v hv; exact hacc id v hv
    | cons k ks ih =>
      intro acc hacc id v hv
      refine ih _ ?_ id v hv
      intro id2 v2 hv2
      rw [lookupA_setA] at hv2
      by_cases h2k : id2 = k
      · rw [if_pos h2k] at hv2
        cases hv2
        norm_num
      · rw [if_neg h2k] at hv2
        exact hacc id2 v2 hv2
  intro id v hv
  exact aux keys [] (by intro id2 v2 h; cases h) id v hv

/-- Claim C10: starting from the load-time initialization (every known node
at scale 1.0), after any finite sequence of animation ticks — each under an
arbitrary hover/selection state — every stored per-node scale lies in the
closed interval `[1.0, 1.1]`. -/
theorem scales_stay_in_unit_band (keys : List String)
    (events : List (Option String × Option String)) (id : String) (v : ℚ)
    (h : lookupA (runTicks keys events (initScales keys)) id = some v) :
    1 ≤ v ∧ v ≤ 1.1 := by
  have aux : ∀ (evs : List (Option String × Option String))
      (m : List (String × ℚ)),
      (∀ id v, lookupA m id = some v → 1 ≤ v ∧ v ≤ 1.1) →
      ∀ id v, lookupA (runTicks keys evs m) id = some v → 1 ≤ v ∧ v ≤ 1.1 := by
    intro evs
    induction evs with
    | nil => intro m hm id v hv; exact hm id v hv
    | cons e es ih =>
      intro m hm id v hv
      exact ih _ (tickScales_preserves_bounds keys e.1 e.2 m hm) id v hv
  exact aux events (initScales keys) (initScales_bounds keys) id v h

/-- Witness for C10 at a concrete input: one node, no ticks. -/
theorem scales_stay_in_unit_band_witness :
    lookupA (runTicks ["n"] [] (initScales ["n"])) "n" = some 1 ∧
      (1 ≤ (1 : ℚ) ∧ (1 : ℚ) ≤ 1.1) := by
  have h : lookupA (runTicks ["n"] [] (initScales ["n"])) "n" = some 1 := by
    norm_num [runTicks, initScales, lookupA, setA]
  exact ⟨h, scales_stay_in_unit_band ["n"] [] "n" 1 h⟩

/-- Witness for C6 at a concrete input. -/
theorem centerOnNode_centers_witness :
    lookupA [("n", ((10 : ℚ), (20 : ℚ)))] "n" = some (10, 20) ∧
      (worldToScreen 1
          (centerOnNode [("n", (10, 20))] "n" 1 800 600 (0, 0) none).1
          ((10 : ℚ) + NODE_WIDTH / 2, (20 : ℚ) + NODE_HEIGHT / 2)
            = (800 / 2, 600 / 2) ∧
        (centerOnNode [("n", (10, 20))] "n" 1 800 600 (0, 0) none).2 = some "n") :=
  ⟨rfl, centerOnNode_centers [("n", (10, 20))] "n" 1 800 600 (0, 0) none (10, 20) rfl⟩

/-- Counterexample to claim C8: the empty root id is not a key of the node
map, yet validation reports the missing-root error (the `!rootNodeId` check
fires first, line 129), not the root-not-found error. -/
theorem load_empty_rootId_is_missingRoot :
    lookupA [("a", ([] : List String))] "" = none ∧
      validateProps "" (some [("a", [])]) = some LoadError.missingRoot ∧
      validateProps "" (some [("a", [])]) ≠ some LoadError.rootNotFound := by
  refine ⟨rfl, rfl, ?_⟩
  decide

/-- Amended claim C8: for every input graph whose root id is non-empty and
not a key of the node map, validation yields the root-not-found error state
(an empty root id yields the missing-root error instead), and neither
levels nor positions are computed: both records remain empty. -/
theorem load_rootNotFound_no_layout (rootId : String)
    (m : List (String × List String)) (fuel : Nat) (w : ℚ)
    (hne : rootId ≠ "") (hmiss : lookupA m rootId = none) :
    validateProps rootId (some m) = some LoadError.rootNotFound ∧
      levelsAfterLoad rootId m fuel = [] ∧
      positionsAfterLoad w rootId m (levelsAfterLoad rootId m fuel) = [] := by
  refine ⟨?_, ?_, ?_⟩
  · simp [validateProps, hne, hmiss]
  · simp [levelsAfterLoad, hne, hmiss]
  · simp [positionsAfterLoad, hne, hmiss]

/-- Witness for the amended C8 at a concrete input. -/
theorem load_rootNotFound_no_layout_witness :
    (("r" : String) ≠ "" ∧ lookupA [("a", ([] : List String))] "r" = none) ∧
      (validateProps "r" (some [("a", [])]) = some LoadError.rootNotFound ∧
        levelsAfterLoad "r" [("a", [])] 3 = [] ∧
        positionsAfterLoad 100 "r" [("a", [])] (levelsAfterLoad "r" [("a", [])] 3) = []) :=
  ⟨⟨by decide, rfl⟩,
    load_rootNotFound_no_layout "r" [("a", [])] 3 100 (by decide) rfl⟩

/-- Counterexample to claim C4: node `C` is listed as a child of both `A`
and `B`; the BFS (which follows the root's children order `[A, B]`) visits
`A` before `B`, but the layout's parent lookup scans the node map's key
order `[root, B, A]` and selects `B`. -/
theorem findParent_not_bfs_order :
    findParent [("root", ["A", "B"]), ("B", ["C"]), ("A", ["C"])] "C" = some "B" ∧
      claimedFirstBfsParent
        (fun id => lookupA [("root", ["A", "B"]), ("B", ["C"]), ("A", ["C"])] id)
        "root" 5 "C" = some "A" ∧
      ("B" : String) ≠ "A" := by
  decide

/-- Amended claim C4: for a node listed in the children of several nodes,
the parent whose x-coordinate the layout uses is the first node in the node
map's key (insertion) order whose children list contains it — not the first
BFS-visited one. -/
theorem findParent_first_key_order (l : List (String × List String)) (t p : String) :
    findParent l t = some p ↔
      ∃ cs l1 l2, l = l1 ++ (p, cs) :: l2 ∧ t ∈ cs ∧ ∀ q ∈ l1, t ∉ q.2 := by
  constructor
  · intro h
    unfold findParent at h
    rcases hfind : l.find? (fun q => q.2.contains t) with _ | q
    · rw [hfind] at h
      cases h
    · rw [hfind] at h
      have hq1 : q.1 = p := by simpa using h
      obtain ⟨hmem, as, bs, heq, hprev⟩ := List.find?_eq_some.mp hfind
      subst heq
      refine ⟨q.2, as, bs, ?_, by simpa using hmem, ?_⟩
      · rw [← hq1]
      · intro r hr
        simpa using hprev r hr
  · rintro ⟨cs, l1, l2, rfl, ht, hprev⟩
    have hfind : (l1 ++ (p, cs) :: l2).find? (fun q => q.2.contains t) = some (p, cs) :=
      List.find?_eq_some.mpr
        ⟨by simpa using ht, l1, l2, rfl, fun a ha => by simpa using hprev a ha⟩
    unfold findParent
    rw [hfind]
    rfl

/-- A BFS iteration with an empty queue changes nothing. -/
theorem bfsStep_nil (g : String → Option (List String)) (s : BfsState)
    (h : s.queue = []) : bfsStep g s = s := by
  cases s
  subst h
  rfl

/-- The levels record after one BFS iteration on a non-empty queue. -/
theorem bfsStep_levels (g : String → Option (List String)) (s : BfsState)
    (id : String) (l : Nat) (rest : List (String × Nat))
    (h : s.queue = (id, l) :: rest) :
    (bfsStep g s).levels = setA s.levels id l := by
  cases s
  subst h
  rfl

/-- The queue after one BFS iteration on a non-empty queue: the remainder,
then one entry `(c, l+1)` for every child `c` of the dequeued node whose
recorded level is falsy after the dequeued node's level was written. -/
theorem bfsStep_queue (g : String → Option (List String)) (s : BfsState)
    (id : String) (l : Nat) (rest : List (String × Nat))
    (h : s.queue = (id, l) :: rest) :
    (bfsStep g s).queue
      = rest ++ (((g id).getD []).filter
          (fun c => isFalsy (setA s.levels id l) c)).map (fun c => (c, l + 1)) := by
  cases s
  subst h
  rfl

/-- One more BFS iteration is one more `bfsStep`. -/
theorem bfsRun_succ (g : String → Option (List String)) (root : String) (n : Nat) :
    bfsRun g root (n + 1) = bfsStep g (bfsRun g root n) := rfl

/-- Counterexample to claim C2: in the graph `root → A`, `A → root` (a
cycle back to the root), the run terminates with the root at level 2, not
at its BFS distance 0 — the re-discovery of the root (whose recorded level
0 is JS-falsy) re-enqueues it and its later dequeue overrides the level. -/
theorem bfs_root_level_overridden :
    (bfsRun (fun id => lookupA [("root", ["A"]), ("A", ["root"])] id) "root" 3).queue
        = [] ∧
      lookupA (bfsRun (fun id => lookupA [("root", ["A"]), ("A", ["root"])] id)
          "root" 3).levels "root" = some 2 ∧
      lookupA (bfsRun (fun id => lookupA [("root", ["A"]), ("A", ["root"])] id)
          "root" 3).levels "A" = some 1 ∧
      (some 2 : Option Nat) ≠ some 0 := by
  decide

/-- Amended claim C2: the root keeps level 0 throughout the run provided no
node lists the root among its children; and re-discovery of a node whose
recorded level is a positive number does not re-enqueue it (every queue
entry added by an iteration has a falsy recorded level at that moment).  A
node whose recorded level is 0 or undefined can be re-enqueued, and each
dequeue overwrites its level (see the counterexample). -/
theorem bfs_root_zero_no_truthy_reenqueue (g : String → Option (List String))
    (root : String) (hroot : ∀ id cs, g id = some cs → root ∉ cs) :
    (∀ n, 1 ≤ n → lookupA (bfsRun g root n).levels root = some 0) ∧
      (∀ n id l rest, (bfsRun g root n).queue = (id, l) :: rest →
        ∀ c l2, (c, l2) ∈ (bfsRun g root (n + 1)).queue →
          (c, l2) ∈ rest ∨ isFalsy (bfsRun g root (n + 1)).levels c = true) := by
  have hinv : ∀ n, 1 ≤ n →
      lookupA (bfsRun g root n).levels root = some 0 ∧
        ∀ e ∈ (bfsRun g root n).queue, e.1 ≠ root := by
    intro n
    induction n with
    | zero => intro h; cases h
    | succ n ih =>
      intro _
      by_cases hn : 1 ≤ n
      · obtain ⟨hl, hq⟩ := ih hn
        rcases hq0 : (bfsRun g root n).queue with _ | ⟨⟨id, l⟩, rest⟩
        · rw [bfsRun_succ, bfsStep_nil g _ hq0]
          exact ⟨hl, hq⟩
        · have hid : id ≠ root := hq (id, l) (by rw [hq0]; exact List.mem_cons_self _ _)
          constructor
          · rw [bfsRun_succ, bfsStep_levels g _ id l rest hq0, lookupA_setA,
              if_neg (show ¬(root = id) from fun e => hid e.symm)]
            exact hl
          · intro e he
            rw [bfsRun_succ, bfsStep_queue g _ id l rest hq0] at he
            rcases List.mem_append.mp he with h1 | h1
            · exact hq e (by rw [hq0]; exact List.mem_cons_of_mem _ h1)
            · obtain ⟨c, hc, rfl⟩ := List.mem_map.mp h1
              have hc2 := (List.mem_filter.mp hc).1
              rcases hg : g id with _ | cs
              · rw [hg] at hc2
                cases hc2
              · rw [hg] at hc2
                exact fun e => hroot id cs hg (e ▸ hc2)
      · have hn0 : n = 0 := by omega
        subst hn0
        have hq0 : (bfsRun g root 0).queue = (root, 0) :: [] := rfl
        constructor
        · rw [bfsRun_succ, bfsStep_levels g _ root 0 [] hq0, lookupA_setA, if_pos rfl]
        · intro e he
          rw [bfsRun_succ, bfsStep_queue g _ root 0 [] hq0, List.nil_append] at he
          obtain ⟨c, hc, rfl⟩ := List.mem_map.mp he
          have hc2 := (List.mem_filter.mp hc).1
          rcases hg : g root with _ | cs
          · rw [hg] at hc2
            cases hc2
          · rw [hg] at hc2
            exact fun e => hroot root cs hg (e ▸ hc2)
  refine ⟨fun n hn => (hinv n hn).1, ?_⟩
  intro n id l rest h c l2 hmem
  rw [bfsRun_succ, bfsStep_queue g _ id l rest h] at hmem
  rcases List.mem_append.mp hmem with h1 | h1
  · exact Or.inl h1
  · obtain ⟨c2, hc2, heq⟩ := List.mem_map.mp h1
    have heq2 : (c2, l + 1) = (c, l2) := heq
    injection heq2 with e1 e2
    subst e1
    refine Or.inr ?_
    rw [bfsRun_succ, bfsStep_levels g _ id l rest h]
    exact (List.mem_filter.mp hc2).2

/-- Witness for the amended C2 at a concrete input. -/
theorem bfs_root_zero_witness :
    (∀ (id : String) (cs : List String),
        (fun _ => (none : Option (List String))) id = some cs → "r" ∉ cs) ∧
      lookupA (bfsRun (fun _ => none) "r" 1).levels "r" = some 0 := by
  have hroot : ∀ (id : String) (cs : List String),
      (fun _ => (none : Option (List String))) id = some cs → "r" ∉ cs := by
    intro id cs h
    cases h
  exact ⟨hroot, (bfs_root_zero_no_truthy_reenqueue (fun _ => none) "r" hroot).1 1 le_rfl⟩

/-!
## Termination of the BFS loop (claim C5)

The argument: the count of truthily-levelled ids never decreases and is
bounded; dequeuing a falsy id with a positive level strictly increases it,
so from some iteration on no such dequeue happens; past that point every
id pushed would later be dequeued while still falsy — impossible — so
nothing is pushed and the queue length strictly decreases to zero.
-/

/-- Every queue entry from iteration 1 on carries a positive level (the
enqueued level is always `l + 1`; only the initial entry has level 0, and
it is consumed by iteration 0). -/
theorem bfs_queue_levels_pos (g : String → Option (List String)) (root : String) :
    ∀ n, 1 ≤ n → ∀ e ∈ (bfsRun g root n).queue, 1 ≤ e.2 := by
  intro n
  induction n with
  | zero => intro h; cases h
  | succ n ih =>
    intro _ e he
    by_cases hn : 1 ≤ n
    · rcases hq0 : (bfsRun g root n).queue with _ | ⟨⟨id, l⟩, rest⟩
      · rw [bfsRun_succ, bfsStep_nil g _ hq0] at he
        exact ih hn e he
      · rw [bfsRun_succ, bfsStep_queue g _ id l rest hq0] at he
        rcases List.mem_append.mp he with h1 | h1
        · exact ih hn e (by rw [hq0]; exact List.mem_cons_of_mem _ h1)
        · obtain ⟨c, _, heq⟩ := List.mem_map.mp h1
          have heq2 : (c, l + 1) = e := heq
          rw [← heq2]
          exact Nat.le_add_left 1 l
    · have hn0 : n = 0 := by omega
      subst hn0
      rw [bfsRun_succ, bfsStep_queue g _ root 0 [] rfl, List.nil_append] at he
      obtain ⟨c, _, heq⟩ := List.mem_map.mp he
      have heq2 : (c, 0 + 1) = e := heq
      rw [← heq2]

/-- A truthy recorded level stays truthy across one BFS iteration. -/
theorem bfs_truthy_mono (g : String → Option (List String)) (root : String)
    (n : Nat) (c : String)
    (h : isFalsy (bfsRun g root n).levels c = false) :
    isFalsy (bfsRun g root (n + 1)).levels c = false := by
  rcases hq0 : (bfsRun g root n).queue with _ | ⟨⟨id, l⟩, rest⟩
  · rw [bfsRun_succ, bfsStep_nil g _ hq0]
    exact h
  · rw [bfsRun_succ, bfsStep_levels g _ id l rest hq0]
    by_cases hc : c = id
    · subst hc
      have hl : 1 ≤ l := by
        by_cases hn : 1 ≤ n
        · exact bfs_queue_levels_pos g root n hn (c, l) (by rw [hq0]; exact List.mem_cons_self _ _)
        · exfalso
          have hn0 : n = 0 := by omega
          subst hn0
          rw [show (bfsRun g root 0).levels = [] from rfl] at h
          simp [isFalsy, lookupA] at h
      unfold isFalsy
      rw [lookupA_setA, if_pos rfl]
      rcases l with _ | l2
      · cases hl
      · rfl
    · unfold isFalsy
      rw [lookupA_setA, if_neg hc]
      exact h

/-- Every queue entry with a positive level names a child occurring in the
graph (given a list covering the graph's support). -/
theorem bfs_queue_mem_allKids (g : String → Option (List String)) (root : String)
    (dom : List String) (hdom : ∀ id, (g id).isSome → id ∈ dom) :
    ∀ n, ∀ e ∈ (bfsRun g root n).queue, 1 ≤ e.2 → e.1 ∈ allKids g dom := by
  intro n
  induction n with
  | zero =>
    intro e he hl
    have h2 : e ∈ [(root, 0)] := he
    rcases List.mem_singleton.mp h2 with rfl
    cases hl
  | succ n ih =>
    intro e he hl
    rcases hq0 : (bfsRun g root n).queue with _ | ⟨⟨id, l⟩, rest⟩
    · rw [bfsRun_succ, bfsStep_nil g _ hq0] at he
      exact ih e he hl
    · rw [bfsRun_succ, bfsStep_queue g _ id l rest hq0] at he
      rcases List.mem_append.mp he with h1 | h1
      · exact ih e (by rw [hq0]; exact List.mem_cons_of_mem _ h1) hl
      · obtain ⟨c, hc, heq⟩ := List.mem_map.mp h1
        have heq2 : (c, l + 1) = e := heq
        subst heq2
        have hc1 := (List.mem_filter.mp hc).1
        rcases hg : g id with _ | cs
        · rw [hg] at hc1
          cases hc1
        · have hid : id ∈ dom := hdom id (by rw [hg]; rfl)
          unfold allKids
          refine List.mem_flatten.mpr ⟨(g id).getD [], List.mem_map.mpr ⟨id, hid, rfl⟩, ?_⟩
          rw [hg]
          rw [hg] at hc1
          exact hc1

/-- The count of truthily-levelled children never decreases across one
iteration. -/
theorem truthyCount_le_succ (g : String → Option (List String)) (root : String)
    (dom : List String) (n : Nat) :
    truthyCount g dom (bfsRun g root n) ≤ truthyCount g dom (bfsRun g root (n + 1)) := by
  apply Finset.card_le_card
  intro c hc
  rw [Finset.mem_filter] at hc ⊢
  exact ⟨hc.1, bfs_truthy_mono g root n c hc.2⟩

/-- The count of truthily-levelled children is monotone in the iteration
count. -/
theorem truthyCount_mono (g : String → Option (List String)) (root : String)
    (dom : List String) {n m : Nat} (h : n ≤ m) :
    truthyCount g dom (bfsRun g root n) ≤ truthyCount g dom (bfsRun g root m) := by
  induction m with
  | zero =>
    have : n = 0 := Nat.le_zero.mp h
    subst this
    exact le_rfl
  | succ m ih =>
    rcases Nat.lt_or_ge n (m + 1) with hlt | hge
    · exact le_trans (ih (Nat.lt_succ_iff.mp hlt)) (truthyCount_le_succ g root dom m)
    · have : n = m + 1 := le_antisymm h hge
      subst this
      exact le_rfl

/-- Dequeuing a falsy-levelled id with a positive level strictly increases
the count of truthily-levelled children. -/
theorem truthyCount_strict (g : String → Option (List String)) (root : String)
    (dom : List String) (hdom : ∀ id, (g id).isSome → id ∈ dom)
    (n : Nat) (id : String) (l : Nat) (rest : List (String × Nat))
    (hq : (bfsRun g root n).queue = (id, l) :: rest) (hl : 1 ≤ l)
    (hf : isFalsy (bfsRun g root n).levels id = true) :
    truthyCount g dom (bfsRun g root n) < truthyCount g dom (bfsRun g root (n + 1)) := by
  apply Finset.card_lt_card
  rw [Finset.ssubset_iff_of_subset]
  · refine ⟨id, ?_, ?_⟩
    · rw [Finset.mem_filter]
      constructor
      · exact List.mem_toFinset.mpr
          (bfs_queue_mem_allKids g root dom hdom n (id, l)
            (by rw [hq]; exact List.mem_cons_self _ _) hl)
      · unfold isFalsy
        rw [bfsRun_succ, bfsStep_levels g _ id l rest hq, lookupA_setA, if_pos rfl]
        rcases l with _ | l2
        · cases hl
        · rfl
    · rw [Finset.mem_filter]
      rintro ⟨-, hff⟩
      rw [hf] at hff
      cases hff
  · intro c hc
    rw [Finset.mem_filter] at hc ⊢
    exact ⟨hc.1, bfs_truthy_mono g root n c hc.2⟩

/-- An id's recorded level does not change over a stretch of iterations in
which it is never at the front of the queue. -/
theorem bfs_levels_stable (g : String → Option (List String)) (root : String)
    (c : String) (t : Nat) :
    ∀ k : Nat,
      (∀ u, t ≤ u → u < t + k →
        ∀ l2 q2, (bfsRun g root u).queue = (c, l2) :: q2 → False) →
      lookupA (bfsRun g root (t + k)).levels c = lookupA (bfsRun g root t).levels c := by
  intro k
  induction k with
  | zero => intro _; rfl
  | succ k ih =>
    intro hno
    have hk := ih (fun u h1 h2 => hno u h1 (by omega))
    rw [show t + (k + 1) = (t + k) + 1 from rfl]
    rcases hq0 : (bfsRun g root (t + k)).queue with _ | ⟨⟨id, l⟩, rest⟩
    · rw [bfsRun_succ, bfsStep_nil g _ hq0]
      exact hk
    · have hne : id ≠ c := by
        rintro rfl
        exact hno (t + k) (by omega) (by omega) l rest hq0
      rw [bfsRun_succ, bfsStep_levels g _ id l rest hq0, lookupA_setA,
        if_neg (fun e => hne e.symm)]
      exact hk

/-- FIFO: if the queue never empties, the entry at index `i` of the queue
at iteration `n` is at the front at iteration `n + i` (every iteration pops
exactly the front and appends at the back). -/
theorem bfs_fifo (g : String → Option (List String)) (root : String)
    (hcon : ∀ t, (bfsRun g root t).queue ≠ []) :
    ∀ (i n : Nat) (e : String × Nat),
      (bfsRun g root n).queue[i]? = some e →
      (bfsRun g root (n + i)).queue.head? = some e := by
  intro i
  induction i with
  | zero =>
    intro n e hget
    rw [Nat.add_zero, List.head?_eq_getElem?]
    exact hget
  | succ i ih =>
    intro n e hget
    rcases hq : (bfsRun g root n).queue with _ | ⟨⟨id, l⟩, rest⟩
    · exact absurd hq (hcon n)
    · have hq1 := bfsStep_queue g _ id l rest hq
      rw [← bfsRun_succ] at hq1
      have hget1 : rest[i]? = some e := by
        rw [hq] at hget
        simpa using hget
      have hlen1 : i < rest.length := by
        rcases List.getElem?_eq_some.mp hget1 with ⟨hh, -⟩
        exact hh
      have hget2 : (bfsRun g root (n + 1)).queue[i]? = some e := by
        rw [hq1, List.getElem?_append_left hlen1]
        exact hget1
      rw [show n + (i + 1) = (n + 1) + i from by omega]
      exact ih (n + 1) e hget2

/-- Claim C5: for every finite graph (its support covered by `dom`) and
every root — including graphs with cycles back to ancestors or to the root
itself — the BFS level loop terminates: after some number of iterations the
work queue is empty (and the loop exits). -/
theorem bfs_terminates (g : String → Option (List String)) (root : String)
    (dom : List String) (hdom : ∀ id, (g id).isSome → id ∈ dom) :
    ∃ n, (bfsRun g root n).queue = [] := by
  by_contra hcon0
  push_neg at hcon0
  have hbdd2 : BddAbove (Set.range fun n => truthyCount g dom (bfsRun g root n)) := by
    refine ⟨((allKids g dom).toFinset).card, ?_⟩
    rintro v ⟨n, rfl⟩
    exact Finset.card_filter_le _ _
  obtain ⟨n0, hn0⟩ :=
    Nat.sSup_mem (Set.range_nonempty fun n => truthyCount g dom (bfsRun g root n)) hbdd2
  have hsup : ∀ m, truthyCount g dom (bfsRun g root m) ≤ truthyCount g dom (bfsRun g root n0) := by
    intro m
    have h1 : truthyCount g dom (bfsRun g root m)
        ≤ sSup (Set.range fun n => truthyCount g dom (bfsRun g root n)) :=
      le_csSup hbdd2 ⟨m, rfl⟩
    have h2 : truthyCount g dom (bfsRun g root n0)
        = sSup (Set.range fun n => truthyCount g dom (bfsRun g root n)) := hn0
    omega
  have hnoA : ∀ m, n0 ≤ m → ∀ id l rest,
      (bfsRun g root m).queue = (id, l) :: rest → 1 ≤ l →
      isFalsy (bfsRun g root m).levels id = false := by
    intro m hm id l rest hq hl
    cases hb : isFalsy (bfsRun g root m).levels id
    · rfl
    · exfalso
      have hlt := truthyCount_strict g root dom hdom m id l rest hq hl hb
      have h4 := truthyCount_mono g root dom hm
      have h5 := hsup (m + 1)
      omega
  have hnopush : ∀ m, n0 + 1 ≤ m → ∀ id l rest,
      (bfsRun g root m).queue = (id, l) :: rest →
      ((g id).getD []).filter
        (fun c => isFalsy (setA (bfsRun g root m).levels id l) c) = [] := by
    intro m hm id l rest hq
    by_contra hne2
    obtain ⟨c, hc⟩ := List.exists_mem_of_ne_nil _ hne2
    have hcq : (c, l + 1) ∈ (bfsRun g root (m + 1)).queue := by
      rw [bfsRun_succ, bfsStep_queue g _ id l rest hq]
      exact List.mem_append_right _ (List.mem_map.mpr ⟨c, hc, rfl⟩)
    have hcf : isFalsy (bfsRun g root (m + 1)).levels c = true := by
      rw [bfsRun_succ, bfsStep_levels g _ id l rest hq]
      exact (List.mem_filter.mp hc).2
    obtain ⟨i, hget⟩ := List.getElem?_of_mem hcq
    have hfront := bfs_fifo g root hcon0 i (m + 1) (c, l + 1) hget
    have hP : ∃ t, m + 1 ≤ t ∧ ∃ l2 q2, (bfsRun g root t).queue = (c, l2) :: q2 := by
      refine ⟨m + 1 + i, by omega, l + 1, ?_⟩
      rcases hq2 : (bfsRun g root (m + 1 + i)).queue with _ | ⟨e, q2⟩
      · rw [hq2] at hfront
        cases hfront
      · rw [hq2] at hfront
        have he : e = (c, l + 1) := by
          have : some e = some (c, l + 1) := hfront
          exact Option.some.inj this
        exact ⟨q2, by rw [he]⟩
    classical
    have ht0 := Nat.find_spec hP
    set t := Nat.find hP with htdef
    obtain ⟨htm, l2, q2, hqt⟩ := ht0
    have hl2 : 1 ≤ l2 :=
      bfs_queue_levels_pos g root t (by omega) (c, l2)
        (by rw [hqt]; exact List.mem_cons_self _ _)
    have hstable : lookupA (bfsRun g root t).levels c
        = lookupA (bfsRun g root (m + 1)).levels c := by
      have hkform : t = (m + 1) + (t - (m + 1)) := by omega
      rw [hkform]
      refine bfs_levels_stable g root c (m + 1) (t - (m + 1)) ?_
      intro u h1 h2 l3 q3 hqu
      have hu : u < t := by omega
      exact Nat.find_min hP hu ⟨h1, l3, q3, hqu⟩
    have hfalsy_t : isFalsy (bfsRun g root t).levels c = true := by
      unfold isFalsy at hcf ⊢
      rw [hstable]
      exact hcf
    have := hnoA t (by omega) c l2 q2 hqt hl2
    rw [hfalsy_t] at this
    cases this
  have hdrop : ∀ m, n0 + 1 ≤ m →
      (bfsRun g root (m + 1)).queue.length + 1 = (bfsRun g root m).queue.length := by
    intro m hm
    rcases hq : (bfsRun g root m).queue with _ | ⟨⟨id, l⟩, rest⟩
    · exact absurd hq (hcon0 m)
    · rw [bfsRun_succ, bfsStep_queue g _ id l rest hq, hnopush m hm id l rest hq]
      simp [hq]
  have hlen : ∀ k, (bfsRun g root (n0 + 1 + k)).queue.length + k
      ≤ (bfsRun g root (n0 + 1)).queue.length := by
    intro k
    induction k with
    | zero => simp
    | succ k ih =>
      have hd := hdrop (n0 + 1 + k) (by omega)
      rw [show n0 + 1 + (k + 1) = (n0 + 1 + k) + 1 from by omega]
      omega
  have hfin := hlen ((bfsRun g root (n0 + 1)).queue.length + 1)
  have hge1 : 1 ≤ (bfsRun g root (n0 + 1 + ((bfsRun g root (n0 + 1)).queue.length + 1))).queue.length :=
    List.length_pos.mpr (hcon0 _)
  omega

/-- Witness for C5 at a concrete input: the two-node cycle
`root → A, A → root`. -/
theorem bfs_terminates_witness :
    (∀ id : String,
        ((fun id => lookupA [("root", ["A"]), ("A", ["root"])] id) id).isSome →
          id ∈ ["root", "A"]) ∧
      ∃ n, (bfsRun (fun id => lookupA [("root", ["A"]), ("A", ["root"])] id)
        "root" n).queue = [] := by
  have hdom : ∀ id : String,
      ((fun id => lookupA [("root", ["A"]), ("A", ["root"])] id) id).isSome →
        id ∈ ["root", "A"] := by
    intro id h
    by_cases h1 : id = "root"
    · rw [h1]
      exact List.mem_cons_self _ _
    · by_cases h2 : id = "A"
      · rw [h2]
        exact List.mem_cons_of_mem _ (List.mem_cons_self _ _)
      · exfalso
        simp only [lookupA] at h
        rw [if_neg (show ¬(("root" : String) = id) from fun e => h1 e.symm),
          if_neg (show ¬(("A" : String) = id) from fun e => h2 e.symm)] at h
        simp [lookupA] at h
  exact ⟨hdom,
    bfs_terminates (fun id => lookupA [("root", ["A"]), ("A", ["root"])] id)
      "root" ["root", "A"] hdom⟩

/-!
## The overlap resolver (claim C1)
-/

/-- Unfolding of `fixPairs` on a list with at least two entries. -/
theorem fixPairs_cons_cons (a b : String) (rest : List String) (pos : PosA)
    (ch : Bool) :
    fixPairs (a :: b :: rest) pos ch
      = (match lookupA pos a, lookupA pos b with
         | some pa, some pb =>
           if pb.1 < pa.1 + NODE_WIDTH + 20 then
             let overlap := pa.1 + NODE_WIDTH + 20 - pb.1
             let pos1 := setA pos a (pa.1 - overlap / 2, pa.2)
             let pb1 := (lookupA pos1 b).getD pb
             fixPairs (b :: rest) (setA pos1 b (pb1.1 + overlap / 2, pb1.2)) true
           else fixPairs (b :: rest) pos ch
         | _, _ => fixPairs (b :: rest) pos ch) := rfl

/-- Once the changed flag is set it stays set for the rest of the pass. -/
theorem fixPairs_true_sticky :
    ∀ (l : List String) (pos : PosA), (fixPairs l pos true).2 = true := by
  intro l
  induction l with
  | nil => intro pos; rfl
  | cons a t ih =>
    intro pos
    cases t with
    | nil => rfl
    | cons b rest =>
      rw [fixPairs_cons_cons]
      rcases ha : lookupA pos a with _ | pa
      · exact ih pos
      · rcases hb : lookupA pos b with _ | pb
        · exact ih pos
        · show (if pb.1 < pa.1 + NODE_WIDTH + 20 then
              fixPairs (b :: rest) (bumpPair pos a b pa pb) true
            else fixPairs (b :: rest) pos true).2 = true
          by_cases hov : pb.1 < pa.1 + NODE_WIDTH + 20
          · rw [if_pos hov]
            exact ih _
          · rw [if_neg hov]
            exact ih pos

/-- If a pass over a level reports no change, the flag was clear on entry,
the positions are untouched, and every adjacent pair of the walked list is
separated by at least `NODE_WIDTH + 20`. -/
theorem fixPairs_no_change :
    ∀ (l : List String) (pos : PosA) (ch : Bool),
      (fixPairs l pos ch).2 = false →
      ch = false ∧ (fixPairs l pos ch).1 = pos ∧
        List.Chain'
          (fun a b => ∀ pa pb : ℚ × ℚ,
            lookupA pos a = some pa → lookupA pos b = some pb →
            pa.1 + NODE_WIDTH + 20 ≤ pb.1) l := by
  intro l
  induction l with
  | nil =>
    intro pos ch h
    exact ⟨h, rfl, List.chain'_nil⟩
  | cons a t ih =>
    intro pos ch h
    cases t with
    | nil => exact ⟨h, rfl, List.chain'_singleton a⟩
    | cons b rest =>
      rw [fixPairs_cons_cons] at h ⊢
      rcases ha : lookupA pos a with _ | pa
      · rw [ha] at h
        have h2 := ih pos ch h
        refine ⟨h2.1, h2.2.1, List.chain'_cons.mpr ⟨?_, h2.2.2⟩⟩
        intro pa2 pb2 hpa hpb
        rw [ha] at hpa
        cases hpa
      · rw [ha] at h
        rcases hb : lookupA pos b with _ | pb
        · rw [hb] at h
          have h2 := ih pos ch h
          refine ⟨h2.1, h2.2.1, List.chain'_cons.mpr ⟨?_, h2.2.2⟩⟩
          intro pa2 pb2 hpa hpb
          rw [hb] at hpb
          cases hpb
        · rw [hb] at h
          have h3 : (if pb.1 < pa.1 + NODE_WIDTH + 20 then
              fixPairs (b :: rest) (bumpPair pos a b pa pb) true
            else fixPairs (b :: rest) pos ch).2 = false := h
          by_cases hov : pb.1 < pa.1 + NODE_WIDTH + 20
          · rw [if_pos hov, fixPairs_true_sticky] at h3
            cases h3
          · rw [if_neg hov] at h3
            have h2 := ih pos ch h3
            refine ⟨h2.1, ?_, List.chain'_cons.mpr ⟨?_, h2.2.2⟩⟩
            · show (if pb.1 < pa.1 + NODE_WIDTH + 20 then
                  fixPairs (b :: rest) (bumpPair pos a b pa pb) true
                else fixPairs (b :: rest) pos ch).1 = pos
              rw [if_neg hov]
              exact h2.2.1
            · intro pa2 pb2 hpa hpb
              rw [ha] at hpa
              rw [hb] at hpb
              cases hpa
              cases hpb
              exact not_lt.mp hov

/-- A pass over a level never deletes a position. -/
theorem fixPairs_isSome :
    ∀ (l : List String) (pos : PosA) (ch : Bool) (id : String),
      (lookupA pos id).isSome → (lookupA (fixPairs l pos ch).1 id).isSome := by
  intro l
  induction l with
  | nil => intro pos ch id h; exact h
  | cons a t ih =>
    intro pos ch id h
    cases t with
    | nil => exact h
    | cons b rest =>
      rw [fixPairs_cons_cons]
      rcases ha : lookupA pos a with _ | pa
      · exact ih pos ch id h
      · rcases hb : lookupA pos b with _ | pb
        · exact ih pos ch id h
        · show (lookupA (if pb.1 < pa.1 + NODE_WIDTH + 20 then
              fixPairs (b :: rest) (bumpPair pos a b pa pb) true
            else fixPairs (b :: rest) pos ch).1 id).isSome
          by_cases hov : pb.1 < pa.1 + NODE_WIDTH + 20
          · rw [if_pos hov]
            refine ih _ true id ?_
            simp only [bumpPair]
            exact isSome_lookupA_setA _ _ _ _ (isSome_lookupA_setA _ _ _ _ h)
          · rw [if_neg hov]
            exact ih pos ch id h

/-- If a whole `resolveOverlaps` call enters with the changed flag set, it
reports a change. -/
theorem resolveFold_true_sticky :
    ∀ (nbl : List (Nat × List String)) (acc : PosA × Bool), acc.2 = true →
      (nbl.foldl (fun acc entry =>
        if entry.1 = 0 then acc
        else fixPairs (sortByX acc.1 entry.2) acc.1 acc.2) acc).2 = true := by
  intro nbl
  induction nbl with
  | nil => intro acc h; exact h
  | cons e nbl ih =>
    intro acc h
    rw [List.foldl_cons]
    apply ih
    by_cases he : e.1 = 0
    · rw [if_pos he]
      exact h
    · rw [if_neg he, h]
      exact fixPairs_true_sticky _ _

/-- If a whole `resolveOverlaps` call reports no change, it entered with
the flag clear, it left the positions untouched, and in every nonzero
level the walked (sorted) ids are chained at distance `≥ NODE_WIDTH + 20`
whenever both are positioned. -/
theorem resolveFold_no_change :
    ∀ (nbl : List (Nat × List String)) (acc : PosA × Bool),
      (nbl.foldl (fun acc entry =>
        if entry.1 = 0 then acc
        else fixPairs (sortByX acc.1 entry.2) acc.1 acc.2) acc).2 = false →
      acc.2 = false ∧
        (nbl.foldl (fun acc entry =>
          if entry.1 = 0 then acc
          else fixPairs (sortByX acc.1 entry.2) acc.1 acc.2) acc).1 = acc.1 ∧
        ∀ e ∈ nbl, e.1 ≠ 0 →
          List.Chain' (fun a b => ∀ pa pb : ℚ × ℚ,
            lookupA acc.1 a = some pa → lookupA acc.1 b = some pb →
            pa.1 + NODE_WIDTH + 20 ≤ pb.1) (sortByX acc.1 e.2) := by
  intro nbl
  induction nbl with
  | nil =>
    intro acc h
    refine ⟨h, rfl, ?_⟩
    intro e he
    exact absurd he (List.not_mem_nil e)
  | cons e nbl ih =>
    intro acc h
    rw [List.foldl_cons] at h ⊢
    by_cases he : e.1 = 0
    · rw [if_pos he] at h ⊢
      obtain ⟨h1, h2, h3⟩ := ih acc h
      refine ⟨h1, h2, ?_⟩
      intro e2 he2 hne
      rcases List.mem_cons.mp he2 with rfl | hmem
      · exact absurd he hne
      · exact h3 e2 hmem hne
    · rw [if_neg he] at h ⊢
      obtain ⟨h1, h2, h3⟩ := ih _ h
      obtain ⟨hc, hpos, hchain⟩ := fixPairs_no_change _ _ _ h1
      refine ⟨hc, ?_, ?_⟩
      · rw [h2]
        exact hpos
      · intro e2 he2 hne
        rcases List.mem_cons.mp he2 with rfl | hmem
        · exact hchain
        · have h4 := h3 e2 hmem hne
          rw [hpos] at h4
          exact h4

/-- A `resolveOverlaps` call never deletes a position. -/
theorem resolveFold_isSome :
    ∀ (nbl : List (Nat × List String)) (acc : PosA × Bool) (id : String),
      (lookupA acc.1 id).isSome →
      (lookupA (nbl.foldl (fun acc entry =>
        if entry.1 = 0 then acc
        else fixPairs (sortByX acc.1 entry.2) acc.1 acc.2) acc).1 id).isSome := by
  intro nbl
  induction nbl with
  | nil => intro acc id h; exact h
  | cons e nbl ih =>
    intro acc id h
    rw [List.foldl_cons]
    apply ih
    by_cases he : e.1 = 0
    · rw [if_pos he]
      exact h
    · rw [if_neg he]
      exact fixPairs_isSome _ _ _ id h

/-- Unfolding of one iteration of the resolve loop. -/
theorem resolveLoop_succ (n : Nat) (nbl : List (Nat × List String)) (pos : PosA) :
    resolveLoop (n + 1) nbl pos
      = if (resolveOverlaps nbl pos).2 then
          resolveLoop n nbl (resolveOverlaps nbl pos).1
        else ((resolveOverlaps nbl pos).1, true) := rfl

/-- If the resolve loop exits early, its final positions are the result of
a `resolveOverlaps` call that reported no change, on a position record in
which every initially positioned id is still positioned. -/
theorem resolveLoop_exit :
    ∀ (fuel : Nat) (nbl : List (Nat × List String)) (pos : PosA),
      (resolveLoop fuel nbl pos).2 = true →
      ∃ pos0 : PosA,
        (∀ id, (lookupA pos id).isSome → (lookupA pos0 id).isSome) ∧
        (resolveOverlaps nbl pos0).2 = false ∧
        (resolveLoop fuel nbl pos).1 = (resolveOverlaps nbl pos0).1 := by
  intro fuel
  induction fuel with
  | zero =>
    intro nbl pos h
    have h2 : false = true := h
    cases h2
  | succ n ih =>
    intro nbl pos h
    rw [resolveLoop_succ] at h ⊢
    by_cases hr : (resolveOverlaps nbl pos).2 = true
    · rw [if_pos hr] at h ⊢
      obtain ⟨pos0, hs, hf, hfin⟩ := ih nbl (resolveOverlaps nbl pos).1 h
      exact ⟨pos0,
        fun id hid => hs id (resolveFold_isSome nbl (pos, false) id hid), hf, hfin⟩
    · rw [if_neg hr] at h ⊢
      refine ⟨pos, fun id hid => hid, by simpa using hr, rfl⟩

/-- The adjacent-pair guarantees of a no-change pass, restated through
`posX`, under the assumption that all walked ids are positioned. -/
theorem chain_to_gapRel (pos : PosA) :
    ∀ l : List String, (∀ id ∈ l, (lookupA pos id).isSome) →
      List.Chain' (fun a b => ∀ pa pb : ℚ × ℚ,
        lookupA pos a = some pa → lookupA pos b = some pb →
        pa.1 + NODE_WIDTH + 20 ≤ pb.1) l →
      List.Chain' (gapRel pos) l := by
  intro l
  induction l with
  | nil => intro _ _; exact List.chain'_nil
  | cons a t ih =>
    intro hsome hch
    cases t with
    | nil => exact List.chain'_singleton a
    | cons b rest =>
      obtain ⟨hab, hrest⟩ := List.chain'_cons.mp hch
      refine List.chain'_cons.mpr
        ⟨?_, ih (fun id hid => hsome id (List.mem_cons_of_mem _ hid)) hrest⟩
      have ha := hsome a (List.mem_cons_self _ _)
      have hb := hsome b (List.mem_cons_of_mem _ (List.mem_cons_self _ _))
      obtain ⟨pa, hpa⟩ := Option.isSome_iff_exists.mp ha
      obtain ⟨pb, hpb⟩ := Option.isSome_iff_exists.mp hb
      unfold gapRel posX
      rw [hpa, hpb]
      exact hab pa pb hpa hpb

instance gapRel_isTrans (pos : PosA) : IsTrans String (gapRel pos) := by
  constructor
  intro a b c hab hbc
  unfold gapRel at hab hbc ⊢
  have hnn : (0 : ℚ) ≤ NODE_WIDTH + 20 := by norm_num [NODE_WIDTH]
  linarith

/-- Two distinct members of a pairwise-related list are related one way or
the other. -/
theorem pairwise_or_of_pairwise {α : Type} (R : α → α → Prop) (l : List α)
    (h : List.Pairwise R l) :
    ∀ a ∈ l, ∀ b ∈ l, a ≠ b → R a b ∨ R b a := by
  have h2 : List.Pairwise (fun a b => R a b ∨ R b a) l := h.imp Or.inl
  intro a ha b hb hne
  exact List.Pairwise.forall (fun x y hxy => hxy.symm) h2 ha hb hne

/-- Claim C1: when the overlap-resolution loop exits early (a full
`resolveOverlaps` pass changes no position) within its 5-iteration budget,
any two distinct same-level (level ≠ 0) ids that both have final positions
are at least `NODE_WIDTH + 20` apart in x.  The positioned-ids hypothesis
asks this only of levels with at least two nodes: on any run where layout
completes, such levels are fully positioned (the in-place sort comparator
dereferences every id's position and would throw otherwise). -/
theorem resolve_early_exit_no_overlap (nbl : List (Nat × List String)) (pos : PosA)
    (hsome : ∀ e ∈ nbl, e.1 ≠ 0 → 1 < e.2.length →
      ∀ id ∈ e.2, (lookupA pos id).isSome)
    (hexit : (resolveLoop 5 nbl pos).2 = true) :
    ∀ e ∈ nbl, e.1 ≠ 0 → ∀ a ∈ e.2, ∀ b ∈ e.2, a ≠ b →
      ∀ pa pb : ℚ × ℚ,
        lookupA (resolveLoop 5 nbl pos).1 a = some pa →
        lookupA (resolveLoop 5 nbl pos).1 b = some pb →
        NODE_WIDTH + 20 ≤ |pa.1 - pb.1| := by
  obtain ⟨pos0, hsome0, hfalse, hfinal⟩ := resolveLoop_exit 5 nbl pos hexit
  obtain ⟨-, hpos_eq, hchains⟩ := resolveFold_no_change nbl (pos0, false) hfalse
  have hfin2 : (resolveLoop 5 nbl pos).1 = pos0 := by
    rw [hfinal]
    exact hpos_eq
  intro e he hne0 a ha b hb hab pa pb hpa hpb
  rw [hfin2] at hpa hpb
  rcases Nat.lt_or_ge 1 e.2.length with hlen | hlen
  · have hsome_lvl : ∀ id ∈ e.2, (lookupA pos0 id).isSome :=
      fun id hid => hsome0 id (hsome e he hne0 hlen id hid)
    have hchain := hchains e he hne0
    have hsorted_some : ∀ id ∈ sortByX pos0 e.2, (lookupA pos0 id).isSome := by
      intro id hid
      exact hsome_lvl id ((List.perm_insertionSort _ _).mem_iff.mp hid)
    have hchainT := chain_to_gapRel pos0 (sortByX pos0 e.2) hsorted_some hchain
    have hpw : List.Pairwise (gapRel pos0) (sortByX pos0 e.2) :=
      List.chain'_iff_pairwise.mp hchainT
    have hma : a ∈ sortByX pos0 e.2 := (List.perm_insertionSort _ _).mem_iff.mpr ha
    have hmb : b ∈ sortByX pos0 e.2 := (List.perm_insertionSort _ _).mem_iff.mpr hb
    have hor := pairwise_or_of_pairwise _ _ hpw a hma b hmb hab
    have hxa : posX pos0 a = pa.1 := by
      unfold posX
      rw [hpa]
    have hxb : posX pos0 b = pb.1 := by
      unfold posX
      rw [hpb]
    rcases hor with hgab | hgba
    · unfold gapRel at hgab
      rw [hxa, hxb] at hgab
      rw [abs_sub_comm]
      have h1 : NODE_WIDTH + 20 ≤ pb.1 - pa.1 := by linarith
      exact le_trans h1 (le_abs_self _)
    · unfold gapRel at hgba
      rw [hxa, hxb] at hgba
      have h1 : NODE_WIDTH + 20 ≤ pa.1 - pb.1 := by linarith
      exact le_trans h1 (le_abs_self _)
  · exfalso
    apply hab
    rcases e2eq : e.2 with _ | ⟨x, t⟩
    · rw [e2eq] at ha
      exact absurd ha (List.not_mem_nil a)
    · rcases t with _ | ⟨y, t2⟩
      · rw [e2eq] at ha hb
        rw [List.mem_singleton.mp ha, List.mem_singleton.mp hb]
      · rw [e2eq] at hlen
        simp at hlen

/-- Witness for C1 at a concrete input: one level `["a", "b"]` with `a` at
x = 0 and `b` at x = 300; the first pass changes nothing, the loop exits
early, and the two nodes are 300 ≥ NODE_WIDTH + 20 apart. -/
theorem resolve_early_exit_witness :
    ((∀ e ∈ [((1 : Nat), ["a", "b"])], e.1 ≠ 0 → 1 < e.2.length →
        ∀ id ∈ e.2,
          (lookupA [("a", ((0 : ℚ), (0 : ℚ))), ("b", (300, 0))] id).isSome) ∧
      (resolveLoop 5 [(1, ["a", "b"])]
        [("a", ((0 : ℚ), (0 : ℚ))), ("b", (300, 0))]).2 = true) ∧
      NODE_WIDTH + 20 ≤ |((0 : ℚ), (0 : ℚ)).1 - ((300 : ℚ), (0 : ℚ)).1| := by
  have hab : ("a" : String) ≠ "b" := by decide
  have hba : ("b" : String) ≠ "a" := by decide
  have hsort : sortByX [("a", ((0 : ℚ), (0 : ℚ))), ("b", (300, 0))] ["a", "b"]
      = ["a", "b"] := by
    norm_num [sortByX, List.insertionSort, List.orderedInsert, posX, lookupA, hab, hba]
  have hfix : fixPairs ["a", "b"] [("a", ((0 : ℚ), (0 : ℚ))), ("b", (300, 0))] false
      = ([("a", ((0 : ℚ), (0 : ℚ))), ("b", (300, 0))], false) := by
    rw [fixPairs_cons_cons]
    norm_num [lookupA, NODE_WIDTH, fixPairs, hab, hba]
  have hro : resolveOverlaps [((1 : Nat), ["a", "b"])]
      [("a", ((0 : ℚ), (0 : ℚ))), ("b", (300, 0))]
      = ([("a", ((0 : ℚ), (0 : ℚ))), ("b", (300, 0))], false) := by
    show (if (1 : Nat) = 0 then ([("a", ((0 : ℚ), (0 : ℚ))), ("b", (300, 0))], false)
      else fixPairs
        (sortByX [("a", ((0 : ℚ), (0 : ℚ))), ("b", (300, 0))] ["a", "b"])
        [("a", ((0 : ℚ), (0 : ℚ))), ("b", (300, 0))] false)
      = ([("a", ((0 : ℚ), (0 : ℚ))), ("b", (300, 0))], false)
    rw [if_neg (by norm_num), hsort, hfix]
  have hloop : resolveLoop 5 [((1 : Nat), ["a", "b"])]
      [("a", ((0 : ℚ), (0 : ℚ))), ("b", (300, 0))]
      = ([("a", ((0 : ℚ), (0 : ℚ))), ("b", (300, 0))], true) := by
    rw [show (5 : Nat) = 4 + 1 from rfl, resolveLoop_succ, hro]
    norm_num
  have hsome : ∀ e ∈ [((1 : Nat), ["a", "b"])], e.1 ≠ 0 → 1 < e.2.length →
      ∀ id ∈ e.2,
        (lookupA [("a", ((0 : ℚ), (0 : ℚ))), ("b", (300, 0))] id).isSome := by
    intro e he _ _ id hid
    rcases List.mem_singleton.mp he with rfl
    rcases List.mem_cons.mp hid with rfl | hid2
    · rfl
    · rcases List.mem_singleton.mp hid2 with rfl
      rfl
  have hexit : (resolveLoop 5 [((1 : Nat), ["a", "b"])]
      [("a", ((0 : ℚ), (0 : ℚ))), ("b", (300, 0))]).2 = true := by
    rw [hloop]
  have hpa : lookupA (resolveLoop 5 [((1 : Nat), ["a", "b"])]
      [("a", ((0 : ℚ), (0 : ℚ))), ("b", (300, 0))]).1 "a" = some (0, 0) := by
    rw [hloop]
    rfl
  have hpb : lookupA (resolveLoop 5 [((1 : Nat), ["a", "b"])]
      [("a", ((0 : ℚ), (0 : ℚ))), ("b", (300, 0))]).1 "b" = some (300, 0) := by
    rw [hloop]
    rfl
  refine ⟨⟨hsome, hexit⟩, ?_⟩
  exact resolve_early_exit_no_overlap [((1 : Nat), ["a", "b"])]
    [("a", ((0 : ℚ), (0 : ℚ))), ("b", (300, 0))] hsome hexit
    ((1 : Nat), ["a", "b"]) (List.mem_singleton_self _) (by norm_num)
    "a" (List.mem_cons_self _ _)
    "b" (List.mem_cons_of_mem _ (List.mem_cons_self _ _))
    (by decide) (0, 0) (300, 0) hpa hpb

/-- A truthy recorded level stays truthy over any number of further
iterations. -/
theorem bfs_truthy_mono_le (g : String → Option (List String)) (root : String)
    (n m : Nat) (hnm : n ≤ m) (c : String)
    (h : isFalsy (bfsRun g root n).levels c = false) :
    isFalsy (bfsRun g root m).levels c = false := by
  induction m with
  | zero =>
    have : n = 0 := Nat.le_zero.mp hnm
    subst this
    exact h
  | succ m ih =>
    rcases Nat.lt_or_ge n (m + 1) with hlt | hge
    · exact bfs_truthy_mono g root m c (ih (Nat.lt_succ_iff.mp hlt))
    · have : n = m + 1 := le_antisymm hnm hge
      subst this
      exact h

end MindMap
